import Mathlib

/-!
Verification of the site2rss extraction-and-reconciliation pipeline.

The Go source keeps all text as `string`; we model Go strings as `List Char`.
Wall-clock instants (`time.Time`, compared via `Equal`/`UnixNano`) are
modelled as `Nat` (nanoseconds since the epoch).
-/

/-- Go `strings.Cut s sep`: split around the first occurrence of `sep`.
Returns `some (before, after)` when `sep` occurs in `s` (for `sep = []`,
Go's `strings.Index` returns `0`, so the result is `some ([], s)`),
and `none` when it does not occur. -/
def cutList (s sep : List Char) : Option (List Char × List Char) :=
  if sep.isPrefixOf s then some ([], s.drop sep.length)
  else
    match s with
    | [] => none
    | c :: rest =>
      match cutList rest sep with
      | none => none
      | some (b, a) => some (c :: b, a)

/-- Go `strings.SplitN s "@" 2`, reported as `none` (no `'@'` in `s`,
one part) or `some (before, after)` (two parts, split at the first `'@'`). -/
def splitAtAt : List Char → Option (List Char × List Char)
  | [] => none
  | c :: r =>
    if c = '@' then some ([], r)
    else
      match splitAtAt r with
      | none => none
      | some (b, a) => some (c :: b, a)

/-- ASCII whitespace, modelling the white space stripped by Go
`strings.TrimSpace` (which also strips other Unicode space). -/
def isSpaceChar (c : Char) : Bool :=
  c = ' ' || c = '\t' || c = '\n' || c = '\r'

/-- Go `strings.TrimSpace`: drop leading and trailing whitespace. -/
def trimSpace (s : List Char) : List Char :=
  ((s.dropWhile isSpaceChar).reverse.dropWhile isSpaceChar).reverse

/-- Go `html.UnescapeString`, modelled for the standard named entities
`&amp; &lt; &gt; &quot;` (Go also handles the remaining named and numeric
entities; none of the verified properties depend on which entities exist). -/
def unescapeString : List Char → List Char
  | '&' :: 'a' :: 'm' :: 'p' :: ';' :: r => '&' :: unescapeString r
  | '&' :: 'l' :: 't' :: ';' :: r => '<' :: unescapeString r
  | '&' :: 'g' :: 't' :: ';' :: r => '>' :: unescapeString r
  | '&' :: 'q' :: 'u' :: 'o' :: 't' :: ';' :: r => '"' :: unescapeString r
  | c :: r => c :: unescapeString r
  | [] => []

/-- Go `url.JoinPath host linkRaw` for a bare-host base (as produced by
`url.Parse(site.URL).Host`) and a plain relative path: the host and the
path joined with exactly one slash. Go additionally cleans `./` and `../`
elements; the verified properties are independent of that cleaning, and
none of the concrete inputs used below contain such elements. -/
def joinPath (host p : List Char) : List Char :=
  host ++ '/' :: p.dropWhile (fun c => c = '/')

/-- Shorthand turning a string literal into the `List Char` text model. -/
def str (s : String) : List Char := s.toList

/-- The canonical extracted record (Go type `Item` in main.go). -/
structure Item where
  Title : List Char
  Link : List Char
  Description : List Char
  AddedAt : Nat
deriving DecidableEq, Repr

/-- The identity triple used by the reconciler's matching loop:
`old.Title == new.Title && old.Link == new.Link && old.Description == new.Description`. -/
def tripleEq (a b : Item) : Prop :=
  a.Title = b.Title ∧ a.Link = b.Link ∧ a.Description = b.Description

instance (a b : Item) : Decidable (tripleEq a b) := by
  unfold tripleEq; infer_instance

/-- One step of the reconciler's inner matching loop
(`for _, old := range oldEntries { if ... { items[newIdx].AddedAt = old.AddedAt } }`):
the last prior entry with an equal identity triple wins. -/
def matchOld (oldEntries : List Item) (it : Item) : Item :=
  { it with
    AddedAt := oldEntries.foldl
      (fun acc old => if tripleEq old it then old.AddedAt else acc) it.AddedAt }

/-- The reconciler's timestamp-matching phase: every fresh item whose triple
occurs in the prior snapshot gets the prior `AddedAt`. -/
def matchTimestamps (items oldEntries : List Item) : List Item :=
  items.map (matchOld oldEntries)

/-- The ordering used by `slices.SortStableFunc`'s comparator: `a` comes no
later than `b` when `b.AddedAt ≤ a.AddedAt` (descending by timestamp,
ties compare equal). -/
def itemLE (a b : Item) : Prop := b.AddedAt ≤ a.AddedAt

instance (a b : Item) : Decidable (itemLE a b) := by
  unfold itemLE; infer_instance

/-- Insert an item into a sorted-descending list, after every earlier item
whose timestamp is `≥` (so that equal timestamps keep input order). -/
def insertItem (x : Item) : List Item → List Item
  | [] => [x]
  | y :: l => if x.AddedAt < y.AddedAt then y :: insertItem x l else x :: y :: l

/-- Go `slices.SortStableFunc items cmp` with the comparator of main.go
(`0` on `Equal` timestamps, `-1` when `a.AddedAt > b.AddedAt`, else `1`):
a stable sort by descending `AddedAt`. A stable sort under a total preorder
has a unique output, implemented here by stable insertion. -/
def sortItems : List Item → List Item
  | [] => []
  | x :: l => insertItem x (sortItems l)

/-- Go `slices.Compact`: replace every run of consecutive equal items
(equal in all fields, `AddedAt` included) by a single item. -/
def compact : List Item → List Item
  | a :: b :: rest => if a = b then compact (b :: rest) else a :: compact (b :: rest)
  | l => l

/-- The reconciler of main.go (`updateCache` after extraction): overwrite
timestamps from the prior snapshot, stable-sort descending by `AddedAt`,
then collapse consecutive duplicates. -/
def reconcile (fresh prior : List Item) : List Item :=
  compact (sortItems (matchTimestamps fresh prior))

/-- A minimal HTML node model for the goquery-based extraction: an element
with a tag name, attributes and children, or a text node. -/
inductive Node where
  | elem (tag : List Char) (attrs : List (List Char × List Char)) (children : List Node)
  | text (s : List Char)

/-- The child list of a node (text nodes have none). -/
def childrenOf : Node → List Node
  | .elem _ _ c => c
  | .text _ => []

mutual

/-- A node followed by all its descendants, in document order. -/
def nodeSelfDesc : Node → List Node
  | .text s => [.text s]
  | .elem t a c => .elem t a c :: forestNodes c

/-- All nodes of a forest in document order (each node followed by its
descendants). -/
def forestNodes : List Node → List Node
  | [] => []
  | n :: rest => nodeSelfDesc n ++ forestNodes rest

end

/-- Whether a node is an element with the given tag. Selector strings are
modelled as plain tag-name selectors, the goquery sub-language the verified
properties exercise. -/
def isTag (sel : List Char) : Node → Bool
  | .elem t _ _ => t = sel
  | .text _ => false

/-- goquery `s.Find(sel)`: the descendants (excluding the selected nodes
themselves) of every node of the selection that match the selector. -/
def findSel (s : List Node) (sel : List Char) : List Node :=
  (s.flatMap (fun n => forestNodes (childrenOf n))).filter (isTag sel)

mutual

/-- The full text content of one node. -/
def nodeText : Node → List Char
  | .text s => s
  | .elem _ _ c => textOfList c

/-- goquery `Selection.Text()`: the concatenated text content of the
selection, descendants included. -/
def textOfList : List Node → List Char
  | [] => []
  | n :: rest => nodeText n ++ textOfList rest

end

/-- The value of attribute `name` on one node (empty when absent, matching
`val, _ := el.Attr(name)` which discards the `ok` flag). -/
def attrOf (n : Node) (name : List Char) : List Char :=
  match n with
  | .elem _ attrs _ => ((attrs.find? (fun p => p.1 = name)).map Prod.snd).getD []
  | .text _ => []

/-- goquery `el.Attr(name)`: the attribute of the first element of the
selection, empty for an empty selection. -/
def attrFirst (s : List Node) (name : List Char) : List Char :=
  match s with
  | [] => []
  | n :: _ => attrOf n name

/-- `getField` of main.go: `parts := strings.SplitN(selector, "@", 2)`;
`el := s.Find(parts[len(parts)-1])`; with two parts the result is
`el.Attr(parts[len(parts)-2])`, otherwise `el.Text()`. So with no `'@'`
the whole selector is the query, and with one the part after the `'@'` is
the query and the part before it the attribute name. -/
def getField (s : List Node) (selector : List Char) : List Char :=
  match splitAtAt selector with
  | none => textOfList (findSel s selector)
  | some (first, second) => attrFirst (findSel s second) first

/-- The per-site `Selector` configuration of main.go. -/
structure Selector where
  Item : List Char
  Link : List Char
  Title : List Char
  Description : List Char
deriving Repr

/-- Link normalization of main.go: join against the site host, trim
whitespace, and prefix `https://` unless the result already starts with
`http`. (The `url.JoinPath` error branch never fires for a bare-host base,
so it is not modelled.) -/
def normalizeLink (host linkRaw : List Char) : List Char :=
  let link := joinPath host linkRaw
  let link := trimSpace link
  if (str "http").isPrefixOf link then link else str "https://" ++ link

/-- The body of the `doc.Find(site.Selector.Item).Each(...)` callback of
main.go for one element `s`: read the three fields, normalize the link,
drop the element when an already-collected item has the same link,
otherwise append a new item timestamped `now`. -/
def collectStep (host : List Char) (sel : Selector) (now : Nat)
    (items : List Item) (s : Node) : List Item :=
  if items.any (fun it => it.Link = normalizeLink host (getField [s] sel.Link)) then items
  else
    items ++ [{ Link := normalizeLink host (getField [s] sel.Link)
                Title := trimSpace (unescapeString (getField [s] sel.Title))
                Description := trimSpace (unescapeString (getField [s] sel.Description))
                AddedAt := now }]

/-- The whole collection loop of main.go over the elements matched by the
item selector. `clock i` is the wall-clock reading used for the `i`-th
element (Go calls `time.Now()` separately per element). -/
def collectItems (host : List Char) (sel : Selector) (clock : Nat → Nat)
    (elems : List Node) : List Item :=
  (elems.foldl (fun st s => (collectStep host sel (clock st.2) st.1 s, st.2 + 1))
    (([] : List Item), 0)).1

/-- The delimiter-rule fields of the older `Site` configuration
(part_000 of the delimiter-based versions). -/
structure DelimRule where
  ItemStart : List Char
  ItemEnd : List Char
  LinkStart : List Char
  LinkEnd : List Char
  TitleStart : List Char
  TitleEnd : List Char
  DescriptionStart : List Char
  DescriptionEnd : List Char
deriving Repr

/-- Outcome of one iteration of the delimiter-extraction loop:
`stop` models `break`, `skip rest` models `continue` with the already
advanced remaining content, `found` models appending an item built from
the three raw fields. -/
inductive StepResult where
  | stop
  | skip (rest : List Char)
  | found (linkRaw titleRaw descriptionRaw rest : List Char)
deriving DecidableEq, Repr

/-- One iteration of the literal delimiter-extraction loop of `updateCache`
(part_000): cut at item-start (`break` when missing), cut at item-end
(`break` when missing; the remainder after it becomes the new content),
then inside the fragment cut the link (`break` when link-start is missing,
`continue` when link-end is missing or the link is empty or `"/"`),
the title and the description (`continue` when either marker is missing). -/
def extractStep (site : DelimRule) (rest : List Char) : StepResult :=
  match cutList rest site.ItemStart with
  | none => .stop
  | some (_, after) =>
    match cutList after site.ItemEnd with
    | none => .stop
    | some (itemRaw, rest') =>
      match cutList itemRaw site.LinkStart with
      | none => .stop
      | some (_, linkCut) =>
        match cutList linkCut site.LinkEnd with
        | none => .skip rest'
        | some (linkRaw, _) =>
          if linkRaw = [] ∨ linkRaw = ['/'] then .skip rest'
          else
            match cutList itemRaw site.TitleStart with
            | none => .skip rest'
            | some (_, titleCut) =>
              match cutList titleCut site.TitleEnd with
              | none => .skip rest'
              | some (titleRaw, _) =>
                match cutList itemRaw site.DescriptionStart with
                | none => .skip rest'
                | some (_, descCut) =>
                  match cutList descCut site.DescriptionEnd with
                  | none => .skip rest'
                  | some (descRaw, _) => .found linkRaw titleRaw descRaw rest'

/-- The delimiter-extraction loop, run with explicit fuel: `none` when the
fuel runs out before the loop breaks, `some` with the collected raw fields
(in extraction order) when it does break. -/
def extractLoop (site : DelimRule) :
    Nat → List Char → List (List Char × List Char × List Char) →
      Option (List (List Char × List Char × List Char))
  | 0, _, _ => none
  | fuel + 1, rest, acc =>
    match extractStep site rest with
    | .stop => some acc.reverse
    | .skip rest' => extractLoop site fuel rest' acc
    | .found l t d rest' => extractLoop site fuel rest' (acc ++ [(l, t, d)])

/-- Result of reading the per-site snapshot file, distinguishing the
file-not-found case (`strings.Contains(err.Error(), "no such file ...")`)
from every other read error. -/
inductive ReadResult where
  | notFound
  | otherError
  | ok (content : List Char)

/-- How a step of `updateCache` ends: a value, a `log.Panicln` (an
unrecovered panic in the update goroutine, which kills the whole process),
or a `log.Fatal` (immediate `os.Exit`). -/
inductive Outcome (α : Type) where
  | ok (a : α)
  | panic
  | fatal
deriving Repr, DecidableEq

/-- Whether an outcome terminates the overall process rather than only the
current site's cycle. -/
def terminatesProcess {α : Type} : Outcome α → Bool
  | .ok _ => false
  | .panic => true
  | .fatal => true

/-- The snapshot-loading phase of `updateCache` (main.go): a missing file
leaves `oldEntries` empty and is not an error; any other read error is a
`log.Panicln`; on success the JSON is unmarshalled (`unmarshal` models
`json.Unmarshal`, `none` being a parse error), and an unmarshal error is a
`log.Panicln` as well. -/
def loadOldEntries (r : ReadResult) (unmarshal : List Char → Option (List Item)) :
    Outcome (List Item) :=
  match r with
  | .notFound => .ok []
  | .otherError => .panic
  | .ok content =>
    match unmarshal content with
    | none => .panic
    | some entries => .ok entries

/-- The snapshot-writing step of `updateCache` (main.go): a failed
`os.WriteFile` is a `log.Fatal`. -/
def saveEntries (writeOk : Bool) : Outcome Unit :=
  if writeOk then .ok () else .fatal

example : cutList (str "ab<i>cd") (str "<i>") = some (str "ab", str "cd") := by decide
example : cutList (str "abcd") [] = some ([], str "abcd") := by decide
example : cutList (str "ab") (str "xy") = none := by decide
example : splitAtAt (str "a@href") = some (str "a", str "href") := by decide
example : splitAtAt (str "h3") = none := by decide
example : trimSpace (str "  ab c  ") = str "ab c" := by decide
example : unescapeString (str "a&amp;b&lt;c") = str "a&b<c" := by decide
example :
    reconcile [⟨str "T", str "L", str "D", 1⟩, ⟨str "U", str "M", str "E", 2⟩] []
      = [⟨str "U", str "M", str "E", 2⟩, ⟨str "T", str "L", str "D", 1⟩] := by decide

/-- A successful cut decomposes the string around the separator. -/
theorem cutList_eq_some {sep : List Char} :
    ∀ {s b a : List Char}, cutList s sep = some (b, a) → s = b ++ sep ++ a := by
  intro s
  induction s with
  | nil =>
    intro b a h
    unfold cutList at h
    by_cases hp : sep.isPrefixOf ([] : List Char)
    · rw [if_pos hp] at h
      have hsep : sep = [] := List.prefix_nil.mp (List.isPrefixOf_iff_prefix.mp hp)
      simp only [List.drop_nil, Option.some.injEq, Prod.mk.injEq] at h
      obtain ⟨hb, ha⟩ := h
      subst hb; subst ha
      simp [hsep]
    · rw [if_neg hp] at h
      simp at h
  | cons c rest ih =>
    intro b a h
    unfold cutList at h
    by_cases hp : sep.isPrefixOf (c :: rest)
    · rw [if_pos hp] at h
      obtain ⟨t, ht⟩ := List.isPrefixOf_iff_prefix.mp hp
      simp only [Option.some.injEq, Prod.mk.injEq] at h
      obtain ⟨hb, ha⟩ := h
      subst hb
      have hdrop : (c :: rest).drop sep.length = t := by
        rw [← ht]; exact List.drop_left sep t
      rw [hdrop] at ha
      subst ha
      rw [← ht]
      simp
    · rw [if_neg hp] at h
      simp only at h
      cases hc : cutList rest sep with
      | none => rw [hc] at h; simp at h
      | some pair =>
        obtain ⟨b', a'⟩ := pair
        rw [hc] at h
        simp only [Option.some.injEq, Prod.mk.injEq] at h
        obtain ⟨hb, ha⟩ := h
        subst hb; subst ha
        simpa using ih hc

/-- Length accounting for a successful cut. -/
theorem cutList_length {s sep b a : List Char}
    (h : cutList s sep = some (b, a)) : b.length + sep.length + a.length = s.length := by
  have hs := cutList_eq_some h
  subst hs
  simp [List.length_append]
  omega

/-- Splitting at the first `'@'` of `a ++ '@' :: q` when `a` has none. -/
theorem splitAtAt_append {a q : List Char} (h : '@' ∉ a) :
    splitAtAt (a ++ '@' :: q) = some (a, q) := by
  induction a with
  | nil => simp [splitAtAt]
  | cons c rest ih =>
    have hc : ¬ c = '@' := fun hc => h (hc ▸ List.mem_cons_self c rest)
    have hrest : '@' ∉ rest := fun hr => h (List.mem_cons_of_mem c hr)
    rw [List.cons_append]
    unfold splitAtAt
    rw [if_neg hc, ih hrest]

/-- A selector without `'@'` does not split. -/
theorem splitAtAt_none {s : List Char} (h : '@' ∉ s) : splitAtAt s = none := by
  induction s with
  | nil => rfl
  | cons c rest ih =>
    have hc : ¬ c = '@' := fun hc => h (hc ▸ List.mem_cons_self c rest)
    have hrest : '@' ∉ rest := fun hr => h (List.mem_cons_of_mem c hr)
    unfold splitAtAt
    rw [if_neg hc, ih hrest]

/-- Inserting permutes with consing. -/
theorem insertItem_perm (x : Item) (l : List Item) : (insertItem x l).Perm (x :: l) := by
  induction l with
  | nil => exact List.Perm.refl _
  | cons y l ih =>
    unfold insertItem
    by_cases h : x.AddedAt < y.AddedAt
    · rw [if_pos h]
      exact (ih.cons y).trans (List.Perm.swap x y l)
    · rw [if_neg h]

/-- The stable sort permutes its input. -/
theorem sortItems_perm (l : List Item) : (sortItems l).Perm l := by
  induction l with
  | nil => exact List.Perm.refl _
  | cons x l ih => exact (insertItem_perm x (sortItems l)).trans (ih.cons x)

/-- Membership in the sorted list. -/
theorem mem_sortItems {z : Item} {l : List Item} : z ∈ sortItems l ↔ z ∈ l :=
  (sortItems_perm l).mem_iff

/-- Inserting preserves descending sortedness. -/
theorem insertItem_pairwise {x : Item} {l : List Item}
    (h : l.Pairwise itemLE) : (insertItem x l).Pairwise itemLE := by
  induction l with
  | nil => simp [insertItem]
  | cons y l ih =>
    rw [List.pairwise_cons] at h
    obtain ⟨hy, hl⟩ := h
    unfold insertItem
    by_cases hlt : x.AddedAt < y.AddedAt
    · rw [if_pos hlt]
      rw [List.pairwise_cons]
      refine ⟨?_, ih hl⟩
      intro z hz
      rcases List.mem_cons.mp ((insertItem_perm x l).mem_iff.mp hz) with hzx | hzl
      · subst hzx; exact Nat.le_of_lt hlt
      · exact hy z hzl
    · rw [if_neg hlt]
      rw [List.pairwise_cons]
      refine ⟨?_, List.pairwise_cons.mpr ⟨hy, hl⟩⟩
      intro z hz
      rcases List.mem_cons.mp hz with hzy | hzl
      · subst hzy; exact Nat.le_of_not_lt hlt
      · exact Nat.le_trans (hy z hzl) (Nat.le_of_not_lt hlt)

/-- The stable sort sorts (descending by `AddedAt`). -/
theorem sortItems_pairwise (l : List Item) : (sortItems l).Pairwise itemLE := by
  induction l with
  | nil => exact List.Pairwise.nil
  | cons x l ih => exact insertItem_pairwise ih

/-- A list already sorted descending is left unchanged by the stable sort. -/
theorem sortItems_of_pairwise : ∀ {l : List Item}, l.Pairwise itemLE → sortItems l = l := by
  intro l
  induction l with
  | nil => intro _; rfl
  | cons x l ih =>
    intro h
    rw [List.pairwise_cons] at h
    obtain ⟨hx, hl⟩ := h
    show insertItem x (sortItems l) = x :: l
    rw [ih hl]
    cases l with
    | nil => rfl
    | cons y t =>
      have : ¬ x.AddedAt < y.AddedAt :=
        Nat.not_lt.mpr (hx y (List.mem_cons_self y t))
      unfold insertItem
      rw [if_neg this]

/-- The items carrying one fixed timestamp, in list order. -/
def filterKey (t : Nat) (l : List Item) : List Item :=
  l.filter (fun z => z.AddedAt = t)

/-- Inserting acts on a fixed-timestamp fibre by appending at the front
when the inserted item carries that timestamp, else not at all: the skipped
prefix consists of strictly larger timestamps. -/
theorem insertItem_filterKey (t : Nat) (x : Item) (l : List Item) :
    filterKey t (insertItem x l) =
      if x.AddedAt = t then x :: filterKey t l else filterKey t l := by
  induction l with
  | nil =>
    by_cases hx : x.AddedAt = t <;> simp [insertItem, filterKey, hx]
  | cons y l ih =>
    unfold insertItem
    by_cases hlt : x.AddedAt < y.AddedAt
    · rw [if_pos hlt]
      by_cases hy : y.AddedAt = t
      · have hx : ¬ x.AddedAt = t := by omega
        rw [if_neg hx] at ih
        simp [filterKey, List.filter_cons, hy, hx] at ih ⊢
        exact ih
      · by_cases hx : x.AddedAt = t
        · rw [if_pos hx] at ih
          rw [if_pos hx]
          simp [filterKey, List.filter_cons, hy] at ih ⊢
          exact ih
        · rw [if_neg hx] at ih
          rw [if_neg hx]
          simp [filterKey, List.filter_cons, hy] at ih ⊢
          exact ih
    · rw [if_neg hlt]
      by_cases hx : x.AddedAt = t <;> simp [filterKey, List.filter_cons, hx]

/-- Stability of the sort: each fixed-timestamp fibre keeps its input
order. -/
theorem sortItems_filterKey (t : Nat) (l : List Item) :
    filterKey t (sortItems l) = filterKey t l := by
  induction l with
  | nil => rfl
  | cons x l ih =>
    show filterKey t (insertItem x (sortItems l)) = filterKey t (x :: l)
    rw [insertItem_filterKey]
    by_cases hx : x.AddedAt = t
    · rw [if_pos hx, ih]
      simp [filterKey, List.filter_cons, hx]
    · rw [if_neg hx, ih]
      simp [filterKey, List.filter_cons, hx]

/-- Collapsing duplicates yields a sublist. -/
theorem compact_sublist : ∀ l : List Item, (compact l).Sublist l := by
  intro l
  induction l with
  | nil => exact List.Sublist.refl _
  | cons a l ih =>
    cases l with
    | nil => exact List.Sublist.refl _
    | cons b rest =>
      show (compact (a :: b :: rest)).Sublist (a :: b :: rest)
      unfold compact
      by_cases h : a = b
      · rw [if_pos h]
        exact List.Sublist.cons a ih
      · rw [if_neg h]
        exact List.Sublist.cons₂ a ih

/-- Membership after collapsing. -/
theorem mem_compact {z : Item} {l : List Item} (h : z ∈ compact l) : z ∈ l :=
  (compact_sublist l).mem h

/-- Collapsing preserves any pairwise property. -/
theorem compact_pairwise {R : Item → Item → Prop} {l : List Item}
    (h : l.Pairwise R) : (compact l).Pairwise R :=
  List.Pairwise.sublist (compact_sublist l) h

/-- Collapsing a nonempty list keeps its first element first. -/
theorem compact_cons_head : ∀ (t : List Item) (x : Item), ∃ u, compact (x :: t) = x :: u := by
  intro t
  induction t with
  | nil => intro x; exact ⟨[], rfl⟩
  | cons y t ih =>
    intro x
    show ∃ u, compact (x :: y :: t) = x :: u
    unfold compact
    by_cases h : x = y
    · rw [if_pos h]; subst h; exact ih x
    · rw [if_neg h]; exact ⟨compact (y :: t), rfl⟩

/-- The collapsed list has no two equal consecutive items. -/
theorem compact_chain : ∀ l : List Item, (compact l).Chain' (fun a b => a ≠ b) := by
  intro l
  induction l with
  | nil => exact List.chain'_nil
  | cons a l ih =>
    cases l with
    | nil => exact List.chain'_singleton a
    | cons b rest =>
      show List.Chain' _ (compact (a :: b :: rest))
      unfold compact
      by_cases h : a = b
      · rw [if_pos h]; exact ih
      · rw [if_neg h]
        obtain ⟨u, hu⟩ := compact_cons_head rest b
        rw [hu]
        rw [hu] at ih
        exact List.chain'_cons.mpr ⟨h, ih⟩

/-- A list with no two equal consecutive items is already collapsed. -/
theorem compact_of_chain : ∀ {l : List Item}, l.Chain' (fun a b => a ≠ b) → compact l = l := by
  intro l
  induction l with
  | nil => intro _; rfl
  | cons a l ih =>
    intro h
    cases l with
    | nil => rfl
    | cons b rest =>
      obtain ⟨hab, hrest⟩ := List.chain'_cons.mp h
      show compact (a :: b :: rest) = a :: b :: rest
      unfold compact
      rw [if_neg hab, ih hrest]

/-- Collapsing is idempotent. -/
theorem compact_idem (l : List Item) : compact (compact l) = compact l :=
  compact_of_chain (compact_chain l)

/-- Matching only rewrites the timestamp, never the identity fields. -/
theorem matchOld_Title (L : List Item) (x : Item) : (matchOld L x).Title = x.Title := rfl

/-- Matching only rewrites the timestamp, never the identity fields. -/
theorem matchOld_Link (L : List Item) (x : Item) : (matchOld L x).Link = x.Link := rfl

/-- Matching only rewrites the timestamp, never the identity fields. -/
theorem matchOld_Description (L : List Item) (x : Item) :
    (matchOld L x).Description = x.Description := rfl

/-- The identity triple survives timestamp matching. -/
theorem tripleEq_matchOld {L : List Item} {x y : Item} :
    tripleEq (matchOld L x) y ↔ tripleEq x y := Iff.rfl

/-- The matching fold leaves its accumulator alone when nothing matches. -/
theorem foldl_no_match {x : Item} :
    ∀ {L : List Item}, (∀ y ∈ L, ¬ tripleEq y x) → ∀ init : Nat,
      L.foldl (fun acc old => if tripleEq old x then old.AddedAt else acc) init = init := by
  intro L
  induction L with
  | nil => intro _ init; rfl
  | cons h t ih =>
    intro hno init
    have hh : ¬ tripleEq h x := hno h (List.mem_cons_self h t)
    show List.foldl _ (if tripleEq h x then h.AddedAt else init) t = init
    rw [if_neg hh]
    exact ih (fun y hy => hno y (List.mem_cons_of_mem h hy)) init

/-- The matching fold keeps a value every match agrees with. -/
theorem foldl_agree_match {x : Item} {v : Nat} :
    ∀ {L : List Item}, (∀ y ∈ L, tripleEq y x → y.AddedAt = v) →
      L.foldl (fun acc old => if tripleEq old x then old.AddedAt else acc) v = v := by
  intro L
  induction L with
  | nil => intro _; rfl
  | cons h t ih =>
    intro hag
    show List.foldl _ (if tripleEq h x then h.AddedAt else v) t = v
    by_cases hh : tripleEq h x
    · rw [if_pos hh, hag h (List.mem_cons_self h t) hh]
      exact ih (fun y hy hyx => hag y (List.mem_cons_of_mem h hy) hyx)
    · rw [if_neg hh]
      exact ih (fun y hy hyx => hag y (List.mem_cons_of_mem h hy) hyx)

/-- When exactly one entry `p` matches, the fold returns its timestamp
(whatever the initial accumulator). -/
theorem foldl_unique_match {x p : Item} :
    ∀ {L : List Item}, p ∈ L → tripleEq p x → (∀ y ∈ L, tripleEq y x → y = p) →
      ∀ init : Nat,
        L.foldl (fun acc old => if tripleEq old x then old.AddedAt else acc) init
          = p.AddedAt := by
  intro L
  induction L with
  | nil => intro hmem; cases hmem
  | cons h t ih =>
    intro hmem hpx huniq init
    show List.foldl _ (if tripleEq h x then h.AddedAt else init) t = p.AddedAt
    by_cases hpt : p ∈ t
    · exact ih hpt hpx (fun y hy hyx => huniq y (List.mem_cons_of_mem h hy) hyx) _
    · have hhp : h = p := by
        rcases List.mem_cons.mp hmem with hph | hpt2
        · exact hph.symm
        · exact absurd hpt2 hpt
      subst hhp
      rw [if_pos hpx]
      have hno : ∀ y ∈ t, ¬ tripleEq y x := by
        intro y hy hyx
        have : y = h := huniq y (List.mem_cons_of_mem h hy) hyx
        subst this
        exact hpt hy
      exact foldl_no_match hno _

/-- With no matching prior entry an item keeps its extraction timestamp. -/
theorem matchOld_of_no_match {L : List Item} {x : Item}
    (h : ∀ y ∈ L, ¬ tripleEq y x) : matchOld L x = x := by
  unfold matchOld
  rw [foldl_no_match h]

/-- With a unique matching prior entry `p`, matching stamps `p`'s
timestamp onto the item. -/
theorem matchOld_of_unique_match {L : List Item} {x p : Item}
    (hmem : p ∈ L) (hpx : tripleEq p x) (huniq : ∀ y ∈ L, tripleEq y x → y = p) :
    (matchOld L x).AddedAt = p.AddedAt := by
  unfold matchOld
  simp only
  rw [foldl_unique_match hmem hpx huniq]

/-- The identity triple is reflexive. -/
theorem tripleEq_refl (x : Item) : tripleEq x x := ⟨rfl, rfl, rfl⟩

/-- How many items of a list share the identity triple of `x`. -/
def countTriple (x : Item) (l : List Item) : Nat :=
  l.countP (fun y => decide (tripleEq y x))

/-- No item of a triple-free list survives into its collapse. -/
theorem countTriple_compact_zero {x : Item} {l : List Item}
    (h : ∀ c ∈ l, ¬ tripleEq c x) : countTriple x (compact l) = 0 := by
  unfold countTriple
  rw [List.countP_eq_zero]
  intro a ha
  simp only [decide_eq_true_eq]
  exact h a (mem_compact ha)

/-- Definitional equation of `compact` on two explicit heads. -/
theorem compact_cons_cons (a b : Item) (rest : List Item) :
    compact (a :: b :: rest) =
      if a = b then compact (b :: rest) else a :: compact (b :: rest) := rfl

/-- A head not sharing the triple does not change the collapsed count. -/
theorem countTriple_compact_cons {x c : Item} {t : List Item}
    (hc : ¬ tripleEq c x) : countTriple x (compact (c :: t)) = countTriple x (compact t) := by
  cases t with
  | nil =>
    show countTriple x [c] = countTriple x []
    unfold countTriple
    simp [List.countP_cons, hc]
  | cons d t' =>
    rw [compact_cons_cons]
    by_cases h : c = d
    · rw [if_pos h]
    · rw [if_neg h]
      unfold countTriple
      rw [List.countP_cons]
      simp [hc]

/-- A triple-free prefix does not change the collapsed count. -/
theorem countTriple_compact_append {x : Item} {u : List Item}
    (hu : ∀ c ∈ u, ¬ tripleEq c x) :
    ∀ l : List Item, countTriple x (compact (u ++ l)) = countTriple x (compact l) := by
  induction u with
  | nil => intro l; rfl
  | cons c u' ih =>
    intro l
    rw [List.cons_append]
    rw [countTriple_compact_cons (hu c (List.mem_cons_self c u'))]
    exact ih (fun d hd => hu d (List.mem_cons_of_mem c hd)) l

/-- Two adjacent copies of `x` followed by a triple-free tail collapse to a
single item with `x`'s triple. -/
theorem countTriple_compact_pair {x : Item} {v : List Item}
    (hv : ∀ c ∈ v, ¬ tripleEq c x) :
    countTriple x (compact (x :: x :: v)) = 1 := by
  rw [compact_cons_cons, if_pos rfl]
  cases v with
  | nil =>
    unfold countTriple
    simp [compact, List.countP_cons, tripleEq_refl x]
  | cons d v' =>
    have hxd : ¬ x = d := by
      intro h
      exact hv d (List.mem_cons_self d v') (h ▸ tripleEq_refl x)
    rw [compact_cons_cons, if_neg hxd]
    unfold countTriple
    rw [List.countP_cons]
    have h3 := countTriple_compact_zero (x := x) hv
    unfold countTriple at h3
    simp [tripleEq_refl x, h3]

/-- A filter returning exactly two elements splits the list into five
pieces with filter-free slack. -/
theorem filter_eq_pair_decomp {p : Item → Bool} {l : List Item} {a b : Item}
    (h : l.filter p = [a, b]) :
    ∃ u w v, l = u ++ a :: (w ++ b :: v) ∧
      (∀ c ∈ u, ¬ p c) ∧ (∀ c ∈ w, ¬ p c) ∧ (∀ c ∈ v, ¬ p c) := by
  rw [List.filter_eq_cons_iff] at h
  obtain ⟨l₁, l₂, hl, hfree₁, hpa, hrest⟩ := h
  rw [List.filter_eq_cons_iff] at hrest
  obtain ⟨l₃, l₄, hl₂, hfree₃, hpb, hnil⟩ := hrest
  refine ⟨l₁, l₃, l₄, ?_, ?_, ?_, ?_⟩
  · rw [hl, hl₂]
  · intro c hc; exact fun hpc => hfree₁ c hc hpc
  · intro c hc; exact fun hpc => hfree₃ c hc hpc
  · intro c hc
    have := List.filter_eq_nil_iff.mp hnil
    exact fun hpc => this c hc hpc

/-- The identity triple is symmetric. -/
theorem tripleEq_symm {a b : Item} (h : tripleEq a b) : tripleEq b a :=
  ⟨h.1.symm, h.2.1.symm, h.2.2.symm⟩

/-- The identity triple is transitive. -/
theorem tripleEq_trans {a b c : Item} (h1 : tripleEq a b) (h2 : tripleEq b c) : tripleEq a c :=
  ⟨h1.1.trans h2.1, h1.2.1.trans h2.2.1, h1.2.2.trans h2.2.2⟩

/-- The identity triple survives timestamp matching (right argument). -/
theorem tripleEq_matchOld_right {L : List Item} {x y : Item} :
    tripleEq y (matchOld L x) ↔ tripleEq y x := Iff.rfl

/-- Every reconciler output item is a timestamp-matched fresh item. -/
theorem mem_reconcile {z : Item} {fresh prior : List Item}
    (h : z ∈ reconcile fresh prior) : z ∈ matchTimestamps fresh prior :=
  mem_sortItems.mp (mem_compact h)

/-- A concrete selection: a root element with one `q` child carrying
attribute `a = "v"`. -/
def c1Sel : List Node :=
  [Node.elem (str "root") [] [Node.elem (str "q") [(str "a", str "v")] []]]

/-- Claim C1, counterexample: on the selection `c1Sel`, the selector
`"q@a"` does not return attribute `a` of the sub-element selected by `q`
(that value is `"v"`): `getField` uses the part after the `'@'` as the
query and the part before it as the attribute name, so it looks for a tag
named `a`, finds nothing, and returns the empty string. -/
theorem c1_getField_counterexample :
    getField c1Sel (str "q@a") ≠ attrFirst (findSel c1Sel (str "q")) (str "a") ∧
    getField c1Sel (str "q@a") = [] ∧
    attrFirst (findSel c1Sel (str "q")) (str "a") = str "v" := by decide

/-- Claim C1 (amended): the structured-query field selector carries the
attribute first, `attribute@query`: for a selector `a ++ "@" ++ q` with no
`'@'` in `a`, `getField` returns the value of attribute `a` read from the
first sub-element selected by query `q`; for a selector containing no
`'@'`, it returns the text content of the sub-elements selected by the
whole selector. -/
theorem c1_getField_amended (s : List Node) (a q sel : List Char)
    (ha : '@' ∉ a) (hsel : '@' ∉ sel) :
    getField s (a ++ '@' :: q) = attrFirst (findSel s q) a ∧
    getField s sel = textOfList (findSel s sel) := by
  constructor
  · unfold getField
    rw [splitAtAt_append ha]
  · unfold getField
    rw [splitAtAt_none hsel]

/-- Claim C1, witness: the amended reading evaluated on `c1Sel` with
attribute `a`, query `q` and plain selector `q`. -/
theorem c1_getField_amended_witness :
    ('@' ∉ str "a") ∧ ('@' ∉ str "q") ∧
    (getField c1Sel (str "a" ++ '@' :: str "q") = attrFirst (findSel c1Sel (str "q")) (str "a") ∧
      getField c1Sel (str "q") = textOfList (findSel c1Sel (str "q"))) :=
  ⟨by decide, by decide,
    c1_getField_amended c1Sel (str "a") (str "q") (str "q") (by decide) (by decide)⟩

/-- Claim C6, counterexample: a snapshot read failure other than
file-not-found is a `log.Panicln` in the update goroutine, which
terminates the overall process instead of aborting only that site's
cycle with an error reported upward. -/
theorem c6_snapshot_counterexample :
    loadOldEntries ReadResult.otherError (fun _ => some []) = Outcome.panic ∧
    terminatesProcess (loadOldEntries ReadResult.otherError (fun _ => some [])) = true := by
  exact ⟨rfl, rfl⟩

/-- Claim C6 (amended): absence of the per-site snapshot file is treated
as an empty prior list and is not an error; but every other read failure
(and any unmarshal failure) panics, and a write failure exits, each
terminating the overall process rather than aborting only that site's
cycle. -/
theorem c6_snapshot_amended (u : List Char → Option (List Item)) (c : List Char) :
    loadOldEntries ReadResult.notFound u = Outcome.ok [] ∧
    loadOldEntries ReadResult.otherError u = Outcome.panic ∧
    (u c = none → loadOldEntries (ReadResult.ok c) u = Outcome.panic) ∧
    (∀ entries, u c = some entries → loadOldEntries (ReadResult.ok c) u = Outcome.ok entries) ∧
    saveEntries false = Outcome.fatal ∧
    saveEntries true = Outcome.ok () ∧
    terminatesProcess (loadOldEntries ReadResult.otherError u) = true ∧
    terminatesProcess (saveEntries false) = true := by
  refine ⟨rfl, rfl, ?_, ?_, rfl, rfl, rfl, rfl⟩
  · intro h
    simp [loadOldEntries, h]
  · intro entries h
    simp [loadOldEntries, h]

/-- A concrete delimiter rule with bracket-style markers. -/
def c5Rule : DelimRule :=
  ⟨str "<i>", str "</i>", str "<l>", str "</l>", str "<t>", str "</t>", str "<d>", str "</d>"⟩

/-- Claim C5, counterexample: with the first fragment missing its
link-start marker, the loop halts with zero items (`break`), silently
dropping the later well-formed item — which the second conjunct shows is
extractable on its own. The claim instead requires that the malformed
item alone be skipped and the later one extracted. -/
theorem c5_linkskip_counterexample :
    extractLoop c5Rule 100 (str "<i>noLink</i><i><l>u</l><t>T</t><d>D</d></i>") [] = some [] ∧
    extractLoop c5Rule 100 (str "<i><l>u</l><t>T</t><d>D</d></i>") []
      = some [(str "u", str "T", str "D")] := by decide

/-- Claim C5 (amended): within a cut-out fragment, a missing link-end
marker, or an extracted link that is empty or exactly `"/"`, skips that
item alone and the loop continues from the content already advanced past
the item-end marker; a missing link-start marker, however, stops the whole
extraction (`break`), abandoning all later items. -/
theorem c5_linkskip_amended (site : DelimRule) (rest pre after itemRaw rest1 : List Char)
    (h1 : cutList rest site.ItemStart = some (pre, after))
    (h2 : cutList after site.ItemEnd = some (itemRaw, rest1)) :
    (cutList itemRaw site.LinkStart = none → extractStep site rest = StepResult.stop) ∧
    (∀ pre2 linkCut, cutList itemRaw site.LinkStart = some (pre2, linkCut) →
      cutList linkCut site.LinkEnd = none → extractStep site rest = StepResult.skip rest1) ∧
    (∀ pre2 linkCut linkRaw rest2, cutList itemRaw site.LinkStart = some (pre2, linkCut) →
      cutList linkCut site.LinkEnd = some (linkRaw, rest2) →
      (linkRaw = [] ∨ linkRaw = ['/']) → extractStep site rest = StepResult.skip rest1) ∧
    (∀ (fuel : Nat) acc rest2, extractStep site rest = StepResult.skip rest2 →
      extractLoop site (fuel + 1) rest acc = extractLoop site fuel rest2 acc) := by
  refine ⟨?_, ?_, ?_, ?_⟩
  · intro h3
    simp [extractStep, h1, h2, h3]
  · intro pre2 linkCut h3 h4
    simp [extractStep, h1, h2, h3, h4]
  · intro pre2 linkCut linkRaw rest2 h3 h4 h5
    simp [extractStep, h1, h2, h3, h4, h5]
  · intro fuel acc rest2 hstep
    simp [extractLoop, hstep]

/-- Claim C5, witness: the amended behaviour on a concrete fragment whose
link is empty. -/
theorem c5_linkskip_witness :
    (cutList (str "<i><l></l>x</i>z") c5Rule.ItemStart = some ([], str "<l></l>x</i>z")) ∧
    (cutList (str "<l></l>x</i>z") c5Rule.ItemEnd = some (str "<l></l>x", str "z")) ∧
    ((cutList (str "<l></l>x") c5Rule.LinkStart = none →
        extractStep c5Rule (str "<i><l></l>x</i>z") = StepResult.stop) ∧
      (∀ pre2 linkCut, cutList (str "<l></l>x") c5Rule.LinkStart = some (pre2, linkCut) →
        cutList linkCut c5Rule.LinkEnd = none →
        extractStep c5Rule (str "<i><l></l>x</i>z") = StepResult.skip (str "z")) ∧
      (∀ pre2 linkCut linkRaw rest2,
        cutList (str "<l></l>x") c5Rule.LinkStart = some (pre2, linkCut) →
        cutList linkCut c5Rule.LinkEnd = some (linkRaw, rest2) →
        (linkRaw = [] ∨ linkRaw = ['/']) →
        extractStep c5Rule (str "<i><l></l>x</i>z") = StepResult.skip (str "z")) ∧
      (∀ (fuel : Nat) acc rest2,
        extractStep c5Rule (str "<i><l></l>x</i>z") = StepResult.skip rest2 →
        extractLoop c5Rule (fuel + 1) (str "<i><l></l>x</i>z") acc
          = extractLoop c5Rule fuel rest2 acc)) :=
  ⟨by decide, by decide,
    c5_linkskip_amended c5Rule (str "<i><l></l>x</i>z") [] (str "<l></l>x</i>z")
      (str "<l></l>x") (str "z") (by decide) (by decide)⟩

/-- Every iteration of the delimiter loop either stops, or both item cuts
succeeded and the outcome (skip or found) carries the content advanced
past the item-end marker. -/
theorem extractStep_cases (site : DelimRule) (rest : List Char) :
    extractStep site rest = StepResult.stop ∨
    ∃ pre after itemRaw rest1,
      cutList rest site.ItemStart = some (pre, after) ∧
      cutList after site.ItemEnd = some (itemRaw, rest1) ∧
      (extractStep site rest = StepResult.skip rest1 ∨
        ∃ l t d, extractStep site rest = StepResult.found l t d rest1) := by
  cases hA : cutList rest site.ItemStart with
  | none => exact Or.inl (by simp [extractStep, hA])
  | some pairA =>
    obtain ⟨preA, after⟩ := pairA
    cases hB : cutList after site.ItemEnd with
    | none => exact Or.inl (by simp [extractStep, hA, hB])
    | some pairB =>
      obtain ⟨itemRaw, rest1⟩ := pairB
      cases hC : cutList itemRaw site.LinkStart with
      | none => exact Or.inl (by simp [extractStep, hA, hB, hC])
      | some pairC =>
        obtain ⟨preC, linkCut⟩ := pairC
        refine Or.inr ⟨preA, after, itemRaw, rest1, rfl, hB, ?_⟩
        cases hD : cutList linkCut site.LinkEnd with
        | none => exact Or.inl (by simp [extractStep, hA, hB, hC, hD])
        | some pairD =>
          obtain ⟨linkRaw, rest2⟩ := pairD
          by_cases hE : linkRaw = [] ∨ linkRaw = ['/']
          · exact Or.inl (by simp [extractStep, hA, hB, hC, hD, hE])
          · cases hF : cutList itemRaw site.TitleStart with
            | none => exact Or.inl (by simp [extractStep, hA, hB, hC, hD, hE, hF])
            | some pairF =>
              obtain ⟨preF, titleCut⟩ := pairF
              cases hG : cutList titleCut site.TitleEnd with
              | none => exact Or.inl (by simp [extractStep, hA, hB, hC, hD, hE, hF, hG])
              | some pairG =>
                obtain ⟨titleRaw, r3⟩ := pairG
                cases hH : cutList itemRaw site.DescriptionStart with
                | none =>
                  exact Or.inl (by simp [extractStep, hA, hB, hC, hD, hE, hF, hG, hH])
                | some pairH =>
                  obtain ⟨preH, descCut⟩ := pairH
                  cases hI : cutList descCut site.DescriptionEnd with
                  | none =>
                    exact Or.inl (by simp [extractStep, hA, hB, hC, hD, hE, hF, hG, hH, hI])
                  | some pairI =>
                    obtain ⟨descRaw, r4⟩ := pairI
                    exact Or.inr ⟨linkRaw, titleRaw, descRaw,
                      by simp [extractStep, hA, hB, hC, hD, hE, hF, hG, hH, hI]⟩

/-- The all-empty-markers delimiter rule. -/
def emptyRule : DelimRule := ⟨[], [], [], [], [], [], [], []⟩

/-- Claim C7, counterexample: with every marker the empty string and
content `"x"`, one iteration neither stops nor advances — it skips with
the remaining content unchanged, so the same fragment is re-matched and
the loop never terminates (any amount of fuel is exhausted). -/
theorem c7_termination_counterexample :
    extractStep emptyRule (str "x") = StepResult.skip (str "x") ∧
    extractLoop emptyRule 50 (str "x") [] = none := by decide

/-- Claim C7 (amended): the delimiter extraction loop terminates for every
page content and every rule whose item-end marker is nonempty: each
iteration either stops or strictly shrinks the remaining content past the
item-end marker, so fuel exceeding the content length always suffices.
With empty markers the loop can fail to terminate. -/
theorem c7_termination_amended (site : DelimRule) (hEnd : site.ItemEnd ≠ []) :
    ∀ (n : Nat) (rest : List Char) (acc : List (List Char × List Char × List Char)),
      rest.length < n → extractLoop site n rest acc ≠ none := by
  intro n
  induction n with
  | zero =>
    intro rest acc h hc
    omega
  | succ n ih =>
    intro rest acc hlen
    rcases extractStep_cases site rest with hstop | ⟨pre, after, itemRaw, rest1, hA, hB, hcase⟩
    · simp [extractLoop, hstop]
    · have hEl : 1 ≤ site.ItemEnd.length := by
        cases hsE : site.ItemEnd with
        | nil => exact absurd hsE hEnd
        | cons c t => simp
      have lA := cutList_length hA
      have lB := cutList_length hB
      rcases hcase with hskip | ⟨l, t, d, hfound⟩
      · simp only [extractLoop, hskip]
        exact ih rest1 acc (by omega)
      · simp only [extractLoop, hfound]
        exact ih rest1 _ (by omega)

/-- Claim C7, witness: the amended termination bound evaluated on a
concrete rule and content. -/
theorem c7_termination_witness :
    (c5Rule.ItemEnd ≠ []) ∧ ((str "<i>a</i>").length < 20) ∧
    extractLoop c5Rule 20 (str "<i>a</i>") [] ≠ none :=
  ⟨by decide, by decide,
    c7_termination_amended c5Rule (by decide) 20 (str "<i>a</i>") [] (by decide)⟩

/-- One collection step preserves pairwise-distinct links. -/
theorem collectStep_pairwise {host : List Char} {sel : Selector} {now : Nat}
    {items : List Item} {e : Node}
    (h : items.Pairwise (fun a b => a.Link ≠ b.Link)) :
    (collectStep host sel now items e).Pairwise (fun a b => a.Link ≠ b.Link) := by
  unfold collectStep
  by_cases hc : items.any (fun it => it.Link = normalizeLink host (getField [e] sel.Link)) = true
  · rw [if_pos hc]
    exact h
  · rw [if_neg hc]
    rw [List.pairwise_append]
    refine ⟨h, List.pairwise_singleton _ _, ?_⟩
    intro a ha b hb
    have hb1 : b = { Link := normalizeLink host (getField [e] sel.Link)
                     Title := trimSpace (unescapeString (getField [e] sel.Title))
                     Description := trimSpace (unescapeString (getField [e] sel.Description))
                     AddedAt := now } := List.mem_singleton.mp hb
    subst hb1
    have hfalse : items.any (fun it => it.Link = normalizeLink host (getField [e] sel.Link)) = false :=
      Bool.eq_false_iff.mpr hc
    have := List.any_eq_false.mp hfalse a ha
    simpa using this

/-- The collection fold preserves pairwise-distinct links. -/
theorem collectFold_pairwise (host : List Char) (sel : Selector) (clock : Nat → Nat) :
    ∀ (elems : List Node) (st : List Item × Nat),
      st.1.Pairwise (fun a b => a.Link ≠ b.Link) →
      ((elems.foldl (fun st2 s => (collectStep host sel (clock st2.2) st2.1 s, st2.2 + 1)) st).1).Pairwise
        (fun a b => a.Link ≠ b.Link) := by
  intro elems
  induction elems with
  | nil => intro st h; exact h
  | cons e elems ih =>
    intro st h
    exact ih _ (collectStep_pairwise h)

/-- Claim C10: the fresh item list built from one page never contains two
items with the same normalized link, and an element whose normalized link
equals the link of an already-collected item is discarded entirely — the
collection step returns the accumulator unchanged, whatever the element's
title or description. -/
theorem c10_distinct_links (host : List Char) (sel : Selector) (clock : Nat → Nat)
    (elems : List Node) :
    ((collectItems host sel clock elems).Pairwise (fun a b => a.Link ≠ b.Link)) ∧
    (∀ (now : Nat) (items : List Item) (e : Node),
      (∃ it ∈ items, it.Link = normalizeLink host (getField [e] sel.Link)) →
      collectStep host sel now items e = items) := by
  constructor
  · exact collectFold_pairwise host sel clock elems ([], 0) List.Pairwise.nil
  · intro now items e hex
    obtain ⟨it, hit, hlink⟩ := hex
    have hany : items.any (fun it2 => it2.Link = normalizeLink host (getField [e] sel.Link)) = true := by
      rw [List.any_eq_true]
      exact ⟨it, hit, by simpa using hlink⟩
    unfold collectStep
    rw [if_pos hany]

/-- With no matching prior entry an item is returned entirely unchanged. -/
theorem matchOld_id_of_no_match {L : List Item} {x : Item}
    (h : ∀ y ∈ L, ¬ tripleEq y x) : matchOld L x = x :=
  matchOld_of_no_match h

/-- Claim C4: for every fresh item whose (title, link, description) triple
occurs in the prior snapshot — uniquely, as every snapshot item does once
snapshots hold distinct triples — reconciliation overwrites that item's
timestamp with the prior item's `AddedAt`; hence every output item with
that triple carries the prior timestamp, whatever the extraction order. -/
theorem c4_timestamp_stability (fresh prior : List Item) (p : Item)
    (hmem : p ∈ prior) (huniq : ∀ y ∈ prior, tripleEq y p → y = p) :
    ∀ z ∈ reconcile fresh prior, tripleEq z p → z.AddedAt = p.AddedAt := by
  intro z hz htrip
  have hzM : z ∈ matchTimestamps fresh prior := mem_reconcile hz
  obtain ⟨x, hx, hzx⟩ := List.mem_map.mp hzM
  subst hzx
  have hxp : tripleEq x p := tripleEq_matchOld.mp htrip
  have hpx : tripleEq p x := tripleEq_symm hxp
  exact matchOld_of_unique_match hmem hpx
    (fun y hy hyx => huniq y hy (tripleEq_trans hyx hxp))

/-- Claim C4, witness: a prior item with a unique triple keeps its
timestamp across a cycle that re-extracts the same triple with a fresh
clock reading. -/
theorem c4_timestamp_stability_witness :
    ((⟨str "T", str "L", str "D", 5⟩ : Item) ∈ [(⟨str "T", str "L", str "D", 5⟩ : Item)]) ∧
    (∀ y ∈ [(⟨str "T", str "L", str "D", 5⟩ : Item)],
      tripleEq y ⟨str "T", str "L", str "D", 5⟩ → y = ⟨str "T", str "L", str "D", 5⟩) ∧
    (∀ z ∈ reconcile [⟨str "T", str "L", str "D", 9⟩] [⟨str "T", str "L", str "D", 5⟩],
      tripleEq z ⟨str "T", str "L", str "D", 5⟩ →
        z.AddedAt = (⟨str "T", str "L", str "D", 5⟩ : Item).AddedAt) :=
  ⟨by decide, by decide,
    c4_timestamp_stability [⟨str "T", str "L", str "D", 9⟩] [⟨str "T", str "L", str "D", 5⟩]
      ⟨str "T", str "L", str "D", 5⟩ (by decide) (by decide)⟩

/-- Claim C9: an output item whose triple occurs nowhere in the prior
snapshot keeps its extraction timestamp, so under the hypothesis that
every extraction timestamp is later than every prior timestamp, its
`AddedAt` is strictly greater than every timestamp in the prior
snapshot. -/
theorem c9_new_item (fresh prior : List Item)
    (hclock : ∀ x ∈ fresh, ∀ y ∈ prior, y.AddedAt < x.AddedAt) :
    ∀ z ∈ reconcile fresh prior, (∀ y ∈ prior, ¬ tripleEq y z) →
      ∀ y ∈ prior, y.AddedAt < z.AddedAt := by
  intro z hz hno y hy
  have hzM : z ∈ matchTimestamps fresh prior := mem_reconcile hz
  obtain ⟨x, hx, hzx⟩ := List.mem_map.mp hzM
  have hnox : ∀ w ∈ prior, ¬ tripleEq w x := by
    intro w hw hwx
    exact hno w hw (hzx ▸ tripleEq_matchOld_right.mpr hwx)
  have hxz : z = x := by rw [← hzx]; exact matchOld_of_no_match hnox
  rw [hxz]
  exact hclock x hx y hy

/-- Claim C9, witness: a genuinely new item extracted after every prior
timestamp ends up newer than the whole prior snapshot. -/
theorem c9_new_item_witness :
    (∀ x ∈ [(⟨str "A", str "B", str "C", 10⟩ : Item)],
      ∀ y ∈ [(⟨str "T", str "L", str "D", 5⟩ : Item)], y.AddedAt < x.AddedAt) ∧
    (∀ z ∈ reconcile [⟨str "A", str "B", str "C", 10⟩] [⟨str "T", str "L", str "D", 5⟩],
      (∀ y ∈ [(⟨str "T", str "L", str "D", 5⟩ : Item)], ¬ tripleEq y z) →
      ∀ y ∈ [(⟨str "T", str "L", str "D", 5⟩ : Item)], y.AddedAt < z.AddedAt) :=
  ⟨by decide,
    c9_new_item [⟨str "A", str "B", str "C", 10⟩] [⟨str "T", str "L", str "D", 5⟩] (by decide)⟩

/-- Claim C8: the reconciliation output is sorted by `AddedAt` in
descending order, and within each fixed timestamp the surviving items
appear in the order the timestamp-matched input had them (the sort is
stable; collapsing only removes items, never reorders). -/
theorem c8_ordering (fresh prior : List Item) :
    (reconcile fresh prior).Pairwise itemLE ∧
    ∀ t : Nat, (filterKey t (reconcile fresh prior)).Sublist
      (filterKey t (matchTimestamps fresh prior)) := by
  constructor
  · exact compact_pairwise (sortItems_pairwise _)
  · intro t
    have h1 : (filterKey t (reconcile fresh prior)).Sublist
        (filterKey t (sortItems (matchTimestamps fresh prior))) := by
      unfold filterKey
      exact List.Sublist.filter _ (compact_sublist _)
    rw [sortItems_filterKey] at h1
    exact h1

/-- Two extractions of one identity triple with distinct wall-clock
timestamps, a concrete fresh list. -/
def c3X : List Item := [⟨str "T", str "L", str "D", 2⟩, ⟨str "T", str "L", str "D", 1⟩]

/-- Claim C3, counterexample: with `R = reconcile c3X []` (two items of
equal triple but different timestamps, both kept since `slices.Compact`
compares `AddedAt` too), `reconcile R R` rewrites both timestamps to the
last match's and collapses them, so the output is not `R`. -/
theorem c3_idempotence_counterexample :
    reconcile (reconcile c3X []) (reconcile c3X []) ≠ reconcile c3X [] := by decide

/-- Claim C3 (amended): reconciliation is idempotent whenever its output
contains no two items sharing an identity triple (which holds in
particular when extraction timestamps are distinct per triple): with
`R = reconcile X Y` triple-distinct, `reconcile R R = R` — same items,
same order, every timestamp unchanged. -/
theorem c3_idempotence_amended (fresh prior : List Item)
    (huniq : ∀ y ∈ reconcile fresh prior, ∀ z ∈ reconcile fresh prior,
      tripleEq y z → y = z) :
    reconcile (reconcile fresh prior) (reconcile fresh prior) = reconcile fresh prior := by
  have h1 : matchTimestamps (reconcile fresh prior) (reconcile fresh prior)
      = reconcile fresh prior := by
    unfold matchTimestamps
    have hid : ∀ it ∈ reconcile fresh prior, matchOld (reconcile fresh prior) it = it := by
      intro it hit
      have hfold : (reconcile fresh prior).foldl
          (fun acc old => if tripleEq old it then old.AddedAt else acc) it.AddedAt
            = it.AddedAt :=
        foldl_agree_match (fun y hy hyx => by rw [huniq y hy it hit hyx])
      unfold matchOld
      rw [hfold]
    calc (reconcile fresh prior).map (matchOld (reconcile fresh prior))
        = (reconcile fresh prior).map id := List.map_congr_left (fun a ha => hid a ha)
      _ = reconcile fresh prior := List.map_id _
  have hsorted : (reconcile fresh prior).Pairwise itemLE :=
    compact_pairwise (sortItems_pairwise _)
  have h2 : sortItems (reconcile fresh prior) = reconcile fresh prior :=
    sortItems_of_pairwise hsorted
  have h3 : compact (reconcile fresh prior) = reconcile fresh prior := by
    show compact (compact (sortItems (matchTimestamps fresh prior)))
        = compact (sortItems (matchTimestamps fresh prior))
    rw [compact_idem]
  show compact (sortItems (matchTimestamps (reconcile fresh prior) (reconcile fresh prior)))
      = reconcile fresh prior
  rw [h1, h2, h3]

/-- Claim C3, witness: idempotence evaluated on a triple-distinct
reconciliation output. -/
theorem c3_idempotence_witness :
    (∀ y ∈ reconcile [(⟨str "T", str "L", str "D", 5⟩ : Item)] [],
      ∀ z ∈ reconcile [(⟨str "T", str "L", str "D", 5⟩ : Item)] [],
        tripleEq y z → y = z) ∧
    reconcile (reconcile [(⟨str "T", str "L", str "D", 5⟩ : Item)] [])
        (reconcile [(⟨str "T", str "L", str "D", 5⟩ : Item)] [])
      = reconcile [(⟨str "T", str "L", str "D", 5⟩ : Item)] [] :=
  ⟨by decide, c3_idempotence_amended [⟨str "T", str "L", str "D", 5⟩] [] (by decide)⟩

/-- A two-element list whose members all equal `x` is `[x, x]`. -/
theorem length_two_all_eq {l : List Item} {x : Item}
    (h2 : l.length = 2) (hall : ∀ y ∈ l, y = x) : l = [x, x] := by
  cases l with
  | nil => simp at h2
  | cons a t =>
    cases t with
    | nil => simp at h2
    | cons b t2 =>
      cases t2 with
      | nil =>
        rw [hall a (by simp), hall b (by simp)]
      | cons c t3 => simp at h2

/-- Claim C2, counterexample: two fresh items identical in title, link and
description but extracted at different wall-clock instants (prior snapshot
empty) both survive reconciliation — `slices.Compact` compares `AddedAt`
too, so the output contains two items with that triple, not exactly one. -/
theorem c2_dedup_counterexample :
    countTriple ⟨str "T", str "L", str "D", 2⟩ (reconcile c3X []) = 2 := by decide

/-- Claim C2 (amended): when the fresh list contains exactly two items
with the given identity triple and, after timestamp matching, both carry
the same timestamp as the matched item `x` (so they are fully equal) while
no other matched item shares that timestamp, the reconciliation output
contains exactly one item with that triple. -/
theorem c2_dedup_amended (fresh prior : List Item) (x : Item)
    (hcount : countTriple x (matchTimestamps fresh prior) = 2)
    (heq : ∀ y ∈ matchTimestamps fresh prior, tripleEq y x → y = x)
    (hkey : ∀ y ∈ matchTimestamps fresh prior, y.AddedAt = x.AddedAt → tripleEq y x) :
    countTriple x (reconcile fresh prior) = 1 := by
  have hmemS : ∀ y ∈ sortItems (matchTimestamps fresh prior),
      y ∈ matchTimestamps fresh prior := fun y hy => mem_sortItems.mp hy
  have heqS : ∀ y ∈ sortItems (matchTimestamps fresh prior), tripleEq y x → y = x :=
    fun y hy => heq y (hmemS y hy)
  have hkeyS : ∀ y ∈ sortItems (matchTimestamps fresh prior),
      y.AddedAt = x.AddedAt → tripleEq y x :=
    fun y hy => hkey y (hmemS y hy)
  have hcountS : countTriple x (sortItems (matchTimestamps fresh prior)) = 2 := by
    unfold countTriple
    rw [(sortItems_perm (matchTimestamps fresh prior)).countP_eq]
    exact hcount
  have hfe : (sortItems (matchTimestamps fresh prior)).filter
        (fun y => decide (y.AddedAt = x.AddedAt))
      = (sortItems (matchTimestamps fresh prior)).filter (fun y => decide (tripleEq y x)) := by
    apply List.filter_congr
    intro y hy
    by_cases h : tripleEq y x
    · have hyx : y = x := heqS y hy h
      subst hyx
      simp [tripleEq_refl]
    · have hk : ¬ y.AddedAt = x.AddedAt := fun hk => h (hkeyS y hy hk)
      simp [h, hk]
  have hlen : ((sortItems (matchTimestamps fresh prior)).filter
      (fun y => decide (tripleEq y x))).length = 2 := by
    rw [← List.countP_eq_length_filter]
    exact hcountS
  have hallx : ∀ y ∈ (sortItems (matchTimestamps fresh prior)).filter
      (fun y => decide (tripleEq y x)), y = x := by
    intro y hy
    have hm := List.mem_filter.mp hy
    exact heqS y hm.1 (by simpa using hm.2)
  have hpairf : (sortItems (matchTimestamps fresh prior)).filter
      (fun y => decide (y.AddedAt = x.AddedAt)) = [x, x] := by
    rw [hfe]
    exact length_two_all_eq hlen hallx
  obtain ⟨u, w, v, hSdecomp, hu, hw, hv⟩ := filter_eq_pair_decomp hpairf
  have hsorted : (sortItems (matchTimestamps fresh prior)).Pairwise itemLE :=
    sortItems_pairwise _
  have hwnil : w = [] := by
    cases hww : w with
    | nil => rfl
    | cons c w2 =>
      exfalso
      rw [hww] at hSdecomp hw
      rw [hSdecomp] at hsorted
      have hparts := List.pairwise_append.mp hsorted
      have hrest := List.pairwise_cons.mp hparts.2.1
      have hxc : itemLE x c := hrest.1 c (by simp)
      have htail := List.pairwise_append.mp hrest.2
      have hcx : itemLE c x := htail.2.2 c (by simp) x (by simp)
      have hkeq : c.AddedAt = x.AddedAt := Nat.le_antisymm hxc hcx
      have hcS : c ∈ sortItems (matchTimestamps fresh prior) := by
        rw [hSdecomp]; simp
      have htr : tripleEq c x := hkeyS c hcS hkeq
      have := hw c (by simp)
      simp [hkeq] at this
  rw [hwnil, List.nil_append] at hSdecomp
  have hufree : ∀ c ∈ u, ¬ tripleEq c x := by
    intro c hc htr
    have hcS : c ∈ sortItems (matchTimestamps fresh prior) := by
      rw [hSdecomp]; simp [hc]
    have hcx : c = x := heqS c hcS htr
    have := hu c hc
    rw [hcx] at this
    simp at this
  have hvfree : ∀ c ∈ v, ¬ tripleEq c x := by
    intro c hc htr
    have hcS : c ∈ sortItems (matchTimestamps fresh prior) := by
      rw [hSdecomp]; simp [hc]
    have hcx : c = x := heqS c hcS htr
    have := hv c hc
    rw [hcx] at this
    simp at this
  show countTriple x (compact (sortItems (matchTimestamps fresh prior))) = 1
  rw [hSdecomp]
  rw [countTriple_compact_append hufree]
  exact countTriple_compact_pair hvfree

/-- Claim C2, witness: two identical fresh items with equal extraction
timestamps collapse to exactly one output item. -/
theorem c2_dedup_witness :
    (countTriple ⟨str "T", str "L", str "D", 5⟩
      (matchTimestamps [⟨str "T", str "L", str "D", 5⟩, ⟨str "T", str "L", str "D", 5⟩] [])
        = 2) ∧
    (∀ y ∈ matchTimestamps
        [(⟨str "T", str "L", str "D", 5⟩ : Item), ⟨str "T", str "L", str "D", 5⟩] [],
      tripleEq y ⟨str "T", str "L", str "D", 5⟩ → y = ⟨str "T", str "L", str "D", 5⟩) ∧
    (∀ y ∈ matchTimestamps
        [(⟨str "T", str "L", str "D", 5⟩ : Item), ⟨str "T", str "L", str "D", 5⟩] [],
      y.AddedAt = (⟨str "T", str "L", str "D", 5⟩ : Item).AddedAt →
        tripleEq y ⟨str "T", str "L", str "D", 5⟩) ∧
    countTriple ⟨str "T", str "L", str "D", 5⟩
      (reconcile [⟨str "T", str "L", str "D", 5⟩, ⟨str "T", str "L", str "D", 5⟩] []) = 1 :=
  ⟨by decide, by decide, by decide,
    c2_dedup_amended [⟨str "T", str "L", str "D", 5⟩, ⟨str "T", str "L", str "D", 5⟩] []
      ⟨str "T", str "L", str "D", 5⟩ (by decide) (by decide) (by decide)⟩
